import Mathlib

/-!
Verification of the `aggregate-map` crate: a wrapper `AggregateMap<M>` that
collects an iterator of key-value pairs into a mapping from keys to
collections of values, together with `Map::insert` adapters for `HashMap`
and `BTreeMap` (both implemented as
`self.entry(key).or_default().extend(std::iter::once(value))`).

Modelling choices:
  - A mapping container (`HashMap<K, C>` or `BTreeMap<K, C>`) is modelled as
    an association list `List (K × C)` observed through `lookup`.  The hash
    adapter updates an existing entry in place and materialises a missing
    entry (placed at the end of the list; hash maps give no cross-key
    ordering guarantee, so only `lookup`-observable facts are claimed for
    them).  The BTree adapter places a missing entry at its sorted position,
    so the association list mirrors the tree's in-order iteration.
  - A per-key collection type `C` satisfying the Insertable-Collection
    contract (`Default + Extend<V>`) is modelled by a designated empty value
    `dflt : C` together with an append-one operation `ext1 : C → V → C`
    (Rust's `extend(once(value))`).  `Vec` is `List V` with append at the
    end; `HashSet` is a duplicate-free `List V` where appending a member is
    the identity.
  - The `Map` trait's single method is modelled by a function
    `ins : M → K → V → M`; the two adapters below are its instances.
-/

namespace AggregateSpec

/-- Observation of an association-list map: the collection stored at `k`,
or `none` when no entry for `k` exists. -/
def lookup {K C : Type} [DecidableEq K] : List (K × C) → K → Option C
  | [], _ => none
  | (k', c) :: rest, k => if k' = k then some c else lookup rest k

/-- Embedding of `Map::insert` for `HashMap` (src/hashmap.rs, lines 12-14):
`self.entry(key).or_default().extend(std::iter::once(value))`.
An existing entry for `key` is extended in place; a missing entry is
created from the default collection and the value appended to it. -/
def hmInsert {K C V : Type} [DecidableEq K] (dflt : C) (ext1 : C → V → C) :
    List (K × C) → K → V → List (K × C)
  | [], k, v => [(k, ext1 dflt v)]
  | (k', c) :: rest, k, v =>
    if k' = k then (k', ext1 c v) :: rest
    else (k', c) :: hmInsert dflt ext1 rest k v

/-- Embedding of `Map::insert` for `BTreeMap` (src/btreemap.rs, lines 11-13): the same
entry-or-default-then-extend logic, with a missing key placed at its
position in the key order, mirroring the tree's sorted iteration. -/
def btInsert {K C V : Type} [LinearOrder K] (dflt : C) (ext1 : C → V → C) :
    List (K × C) → K → V → List (K × C)
  | [], k, v => [(k, ext1 dflt v)]
  | (k', c) :: rest, k, v =>
    if k = k' then (k', ext1 c v) :: rest
    else if k < k' then (k, ext1 dflt v) :: (k', c) :: rest
    else (k', c) :: btInsert dflt ext1 rest k v

/-- The `AggregateMap<M>` wrapper (src/lib.rs, line 85): a single-field
struct owning the underlying container. -/
structure AggregateMap (M : Type) where
  inner : M

/-- Embedding of `AggregateMap::into_inner` (src/lib.rs, lines 89-91). -/
def AggregateMap.into_inner {M : Type} (a : AggregateMap M) : M := a.inner

/-- Embedding of `From<M> for AggregateMap<M>` (src/lib.rs, lines 106-110). -/
def AggregateMap.fromMap {M : Type} (m : M) : AggregateMap M := ⟨m⟩

/-- The derived `Default` of `AggregateMap<M>`: wrap the underlying
container's default value. -/
def AggregateMap.mkDefault {M : Type} (dflt : M) : AggregateMap M := ⟨dflt⟩

/-- Embedding of `Extend<(K, V)> for AggregateMap<M>` (src/lib.rs, lines 126-134):
for each pair in sequence order, invoke the underlying container's
`insert`. -/
def AggregateMap.extend {M K V : Type} (ins : M → K → V → M)
    (a : AggregateMap M) (pairs : List (K × V)) : AggregateMap M :=
  ⟨pairs.foldl (fun m p => ins m p.1 p.2) a.inner⟩

/-- Embedding of `FromIterator<(K, V)> for AggregateMap<M>` (src/lib.rs, lines 136-145):
default-construct, then extend with the pairs. -/
def AggregateMap.from_iter {M K V : Type} (dflt : M) (ins : M → K → V → M)
    (pairs : List (K × V)) : AggregateMap M :=
  AggregateMap.extend ins (AggregateMap.mkDefault dflt) pairs

/-- Embedding of `Extend<V>` for `Vec<V>` restricted to `extend(once(v))`: push at the
end. -/
def vecExt {V : Type} (c : List V) (v : V) : List V := c ++ [v]

/-- Embedding of `Extend<V>` for `HashSet<V>` restricted to `extend(once(v))`: inserting
an element that is already present leaves the set unchanged. -/
def setExt {V : Type} [DecidableEq V] (s : List V) (v : V) : List V :=
  if v ∈ s then s else s ++ [v]

/-- Embedding of `Extend<(K, V)>` of a nested `AggregateMap` used as a per-key
collection: appending one pair is extending by the singleton sequence. -/
def aggExtendOne {M K V : Type} (ins : M → K → V → M)
    (a : AggregateMap M) (p : K × V) : AggregateMap M :=
  AggregateMap.extend ins a [p]

/-- The subsequence of values attached to key `k` in a pair sequence, in
sequence order. -/
def valuesOf {K V : Type} [DecidableEq K] (k : K) : List (K × V) → List V
  | [] => []
  | p :: rest => if p.1 = k then p.2 :: valuesOf k rest else valuesOf k rest

/-- Combine an optional stored collection with newly arriving values:
no entry appears unless at least one value arrives. -/
def optAppend {V : Type} : Option (List V) → List V → Option (List V)
  | none, [] => none
  | none, v :: vs => some (v :: vs)
  | some c, vs => some (c ++ vs)

/-- The keys of the association list are strictly ascending. -/
def sortedKeys {K C : Type} [LT K] (m : List (K × C)) : Prop :=
  (m.map Prod.fst).Pairwise (fun a b => a < b)

/-! ### Behaviour of the adapters' insert, observed through `lookup` -/

theorem lookup_hmInsert_self {K C V : Type} [DecidableEq K] (dflt : C) (ext1 : C → V → C)
    (m : List (K × C)) (k : K) (v : V) :
    lookup (hmInsert dflt ext1 m k v) k = some (ext1 ((lookup m k).getD dflt) v) := by
  induction m with
  | nil => simp [hmInsert, lookup]
  | cons p rest ih =>
    obtain ⟨k', c⟩ := p
    by_cases h : k' = k
    · subst h; simp [hmInsert, lookup]
    · simp [hmInsert, lookup, h, ih]

theorem lookup_hmInsert_ne {K C V : Type} [DecidableEq K] (dflt : C) (ext1 : C → V → C)
    (m : List (K × C)) (k : K) (v : V) (k' : K) (hne : k' ≠ k) :
    lookup (hmInsert dflt ext1 m k v) k' = lookup m k' := by
  have hks : k ≠ k' := Ne.symm hne
  induction m with
  | nil => simp [hmInsert, lookup, hks]
  | cons p rest ih =>
    obtain ⟨k0, c⟩ := p
    by_cases h : k0 = k
    · subst h
      simp [hmInsert, lookup, hks]
    · simp [hmInsert, lookup, h, ih]

/-- A key strictly below every key of the list has no entry. -/
theorem lookup_eq_none_of_forall_lt {K C : Type} [LinearOrder K]
    (m : List (K × C)) (k : K) (h : ∀ x ∈ m.map Prod.fst, k < x) :
    lookup m k = none := by
  induction m with
  | nil => rfl
  | cons p rest ih =>
    obtain ⟨k0, c⟩ := p
    have h0 : k < k0 := h k0 (by simp)
    have hne : k0 ≠ k := ne_of_gt h0
    have htail : ∀ x ∈ rest.map Prod.fst, k < x := fun x hx => h x (by simp [hx])
    simp [lookup, hne, ih htail]

theorem lookup_btInsert_self {K C V : Type} [LinearOrder K] (dflt : C) (ext1 : C → V → C)
    (m : List (K × C)) (k : K) (v : V) (hs : sortedKeys m) :
    lookup (btInsert dflt ext1 m k v) k = some (ext1 ((lookup m k).getD dflt) v) := by
  induction m with
  | nil => simp [btInsert, lookup]
  | cons p rest ih =>
    obtain ⟨k', c⟩ := p
    simp only [sortedKeys, List.map_cons, List.pairwise_cons] at hs
    obtain ⟨hall, hrest⟩ := hs
    by_cases h : k = k'
    · subst h; simp [btInsert, lookup]
    · have hk'k : k' ≠ k := Ne.symm h
      by_cases hlt : k < k'
      · have hnone : lookup rest k = none :=
          lookup_eq_none_of_forall_lt rest k fun x hx => lt_trans hlt (hall x hx)
        simp [btInsert, lookup, h, hlt, hk'k, hnone]
      · simp [btInsert, lookup, h, hlt, hk'k, ih hrest]

theorem lookup_btInsert_ne {K C V : Type} [LinearOrder K] (dflt : C) (ext1 : C → V → C)
    (m : List (K × C)) (k : K) (v : V) (k' : K) (hne : k' ≠ k) :
    lookup (btInsert dflt ext1 m k v) k' = lookup m k' := by
  have hks : k ≠ k' := Ne.symm hne
  induction m with
  | nil => simp [btInsert, lookup, hks]
  | cons p rest ih =>
    obtain ⟨k0, c⟩ := p
    by_cases h : k = k0
    · subst h
      simp [btInsert, lookup, hks]
    · by_cases hlt : k < k0
      · simp [btInsert, lookup, h, hlt, hks]
      · simp [btInsert, lookup, h, hlt, ih]

theorem extend_cons {M K V : Type} (ins : M → K → V → M) (m : M)
    (p : K × V) (rest : List (K × V)) :
    AggregateMap.extend ins ⟨m⟩ (p :: rest)
      = AggregateMap.extend ins ⟨ins m p.1 p.2⟩ rest := rfl

/-- Folding the hash adapter's insert with a `Vec` per-key collection over a
pair sequence appends, at each key, exactly that key's values in sequence
order. -/
theorem lookup_hmExtendVec {K V : Type} [DecidableEq K]
    (pairs : List (K × V)) (m : List (K × List V)) (k : K) :
    lookup ((AggregateMap.extend (hmInsert [] vecExt) ⟨m⟩ pairs).inner) k
      = optAppend (lookup m k) (valuesOf k pairs) := by
  induction pairs generalizing m with
  | nil =>
    cases h : lookup m k <;>
      simp [AggregateMap.extend, optAppend, valuesOf, h]
  | cons p rest ih =>
    obtain ⟨k1, v1⟩ := p
    rw [extend_cons, ih]
    by_cases h : k1 = k
    · subst h
      have hself := lookup_hmInsert_self ([] : List V) vecExt m k1 v1
      cases hm : lookup m k1 with
      | none =>
        rw [hself, hm]
        cases hv : valuesOf k1 rest <;>
          simp [optAppend, valuesOf, vecExt, hv]
      | some c =>
        rw [hself, hm]
        cases hv : valuesOf k1 rest <;>
          simp [optAppend, valuesOf, vecExt, hv]
    · rw [lookup_hmInsert_ne _ _ _ _ _ _ (Ne.symm h)]
      simp [valuesOf, h]

/-- Presence of the BTree adapter's own key after insertion, with no
sortedness assumption. -/
theorem lookup_btInsert_isSome {K C V : Type} [LinearOrder K] (dflt : C) (ext1 : C → V → C)
    (m : List (K × C)) (k : K) (v : V) :
    (lookup (btInsert dflt ext1 m k v) k).isSome = true := by
  induction m with
  | nil => simp [btInsert, lookup]
  | cons p rest ih =>
    obtain ⟨k', c⟩ := p
    by_cases h : k = k'
    · subst h; simp [btInsert, lookup]
    · by_cases hlt : k < k'
      · simp [btInsert, lookup, h, hlt]
      · simp [btInsert, lookup, h, hlt, Ne.symm h, ih]

/-- Every key of the BTree adapter's result is the inserted key or a key of
the original map. -/
theorem keys_btInsert_subset {K C V : Type} [LinearOrder K] (dflt : C) (ext1 : C → V → C)
    (m : List (K × C)) (k : K) (v : V) :
    ∀ x ∈ (btInsert dflt ext1 m k v).map Prod.fst, x = k ∨ x ∈ m.map Prod.fst := by
  induction m with
  | nil =>
    intro x hx
    simp [btInsert] at hx
    simp [hx]
  | cons p rest ih =>
    obtain ⟨k', c⟩ := p
    intro x hx
    by_cases h : k = k'
    · subst h
      simp only [btInsert, if_pos rfl, List.map_cons, List.mem_cons] at hx
      exact Or.inr (by simpa using hx)
    · by_cases hlt : k < k'
      · simp only [btInsert, if_neg h, if_pos hlt, List.map_cons, List.mem_cons] at hx
        rcases hx with h1 | h2
        · exact Or.inl h1
        · exact Or.inr (by simpa using h2)
      · simp only [btInsert, if_neg h, if_neg hlt, List.map_cons, List.mem_cons] at hx
        rcases hx with h1 | h2
        · exact Or.inr (by simp [h1])
        · rcases ih x h2 with h3 | h4
          · exact Or.inl h3
          · exact Or.inr (by simp [h4])

/-- The BTree adapter's insert preserves strict sortedness of the keys. -/
theorem sortedKeys_btInsert {K C V : Type} [LinearOrder K] (dflt : C) (ext1 : C → V → C)
    (m : List (K × C)) (k : K) (v : V) (hs : sortedKeys m) :
    sortedKeys (btInsert dflt ext1 m k v) := by
  induction m with
  | nil => simp [btInsert, sortedKeys]
  | cons p rest ih =>
    obtain ⟨k', c⟩ := p
    simp only [sortedKeys, List.map_cons, List.pairwise_cons] at hs
    obtain ⟨hall, hrest⟩ := hs
    by_cases h : k = k'
    · subst h
      have hstep : btInsert dflt ext1 ((k, c) :: rest) k v = (k, ext1 c v) :: rest := by
        simp [btInsert]
      rw [hstep]
      simp only [sortedKeys, List.map_cons, List.pairwise_cons]
      exact ⟨hall, hrest⟩
    · by_cases hlt : k < k'
      · simp only [btInsert, if_neg h, if_pos hlt, sortedKeys, List.map_cons,
          List.pairwise_cons]
        refine ⟨?_, fun y hy => hall y hy, hrest⟩
        intro y hy
        rcases List.mem_cons.mp hy with h1 | h2
        · exact h1 ▸ hlt
        · exact lt_trans hlt (hall y h2)
      · have hk'k : k' < k := lt_of_le_of_ne (not_lt.mp hlt) (Ne.symm h)
        simp only [btInsert, if_neg h, if_neg hlt, sortedKeys, List.map_cons,
          List.pairwise_cons]
        refine ⟨?_, ih hrest⟩
        intro y hy
        rcases keys_btInsert_subset dflt ext1 rest k v y hy with h1 | h2
        · exact h1 ▸ hk'k
        · exact hall y h2

/-! ### Claim theorems -/

/-- C1: for any pair sequence in which key `k` appears with values
`v1..vn` (n ≥ 1, in that order), collecting into an AggregateMap over a
hash map with `Vec` per-key collections stores at `k` exactly the ordered
sequence `[v1, ..., vn]`. -/
theorem C1_multiplicity_preservation {K V : Type} [DecidableEq K]
    (pairs : List (K × V)) (k : K) (h : valuesOf k pairs ≠ []) :
    lookup ((AggregateMap.from_iter [] (hmInsert [] vecExt) pairs).into_inner) k
      = some (valuesOf k pairs) := by
  have hmain := lookup_hmExtendVec pairs ([] : List (K × List V)) k
  cases hv : valuesOf k pairs with
  | nil => exact absurd hv h
  | cons v vs =>
    rw [AggregateMap.from_iter, AggregateMap.mkDefault, AggregateMap.into_inner,
      hmain, hv]
    simp [lookup, optAppend]

/-- Witness for C1 at a concrete input with a repeated key. -/
theorem C1_multiplicity_preservation_witness :
    valuesOf 0 [(0, 10), (1, 20), (0, 30)] = [10, 30]
    ∧ lookup ((AggregateMap.from_iter [] (hmInsert [] vecExt)
        [(0, 10), (1, 20), (0, 30)]).into_inner) 0
      = some (valuesOf 0 [(0, 10), (1, 20), (0, 30)]) :=
  ⟨by decide, C1_multiplicity_preservation [(0, 10), (1, 20), (0, 30)] 0 (by decide)⟩

/-- C2: for both adapters, `insert(k, v)` appends `v` to the collection at
`k`, first binding `k` to a default-constructed empty collection when `k`
is absent; the operation is a total function (it never fails). -/
theorem C2_insert_effect
    {K1 D1 V1 : Type} [DecidableEq K1] (d1 : D1) (e1 : D1 → V1 → D1)
    (m1 : List (K1 × D1)) (k1 : K1) (v1 : V1)
    {K2 D2 V2 : Type} [LinearOrder K2] (d2 : D2) (e2 : D2 → V2 → D2)
    (m2 : List (K2 × D2)) (k2 : K2) (v2 : V2) (hs : sortedKeys m2) :
    (lookup m1 k1 = none → lookup (hmInsert d1 e1 m1 k1 v1) k1 = some (e1 d1 v1))
    ∧ (∀ c, lookup m1 k1 = some c → lookup (hmInsert d1 e1 m1 k1 v1) k1 = some (e1 c v1))
    ∧ (lookup m2 k2 = none → lookup (btInsert d2 e2 m2 k2 v2) k2 = some (e2 d2 v2))
    ∧ (∀ c, lookup m2 k2 = some c →
        lookup (btInsert d2 e2 m2 k2 v2) k2 = some (e2 c v2)) := by
  refine ⟨?_, ?_, ?_, ?_⟩
  · intro h
    rw [lookup_hmInsert_self, h]
    rfl
  · intro c h
    rw [lookup_hmInsert_self, h]
    rfl
  · intro h
    rw [lookup_btInsert_self _ _ _ _ _ hs, h]
    rfl
  · intro c h
    rw [lookup_btInsert_self _ _ _ _ _ hs, h]
    rfl

/-- Witness for C2 at concrete inputs: inserting into an empty map and into
a map that already binds the key, for both adapters. -/
theorem C2_insert_effect_witness :
    lookup (hmInsert [] vecExt ([(1, [5])] : List (Nat × List Nat)) 0 7) 0 = some [7]
    ∧ lookup (btInsert [] vecExt ([(0, [5])] : List (Nat × List Nat)) 0 7) 0
      = some [5, 7] := by
  have h := C2_insert_effect ([] : List Nat) vecExt [(1, [5])] 0 7
      ([] : List Nat) vecExt [(0, [5])] 0 7 (by simp [sortedKeys])
  exact ⟨h.1 rfl, h.2.2.2 [5] rfl⟩

/-- C3: extending with `A` and then with `B` yields the same AggregateMap
state as a single extend with `A ++ B`. -/
theorem C3_extend_cumulative {M K V : Type} (ins : M → K → V → M)
    (a : AggregateMap M) (A B : List (K × V)) :
    AggregateMap.extend ins (AggregateMap.extend ins a A) B
      = AggregateMap.extend ins a (A ++ B) := by
  simp [AggregateMap.extend, List.foldl_append]

/-- C4: one-shot construction from an iterator equals default-construction
followed by extend, and the underlying container is the left fold of
single-pair insertions over the sequence, starting from the default
container. -/
theorem C4_from_iter_is_default_then_extend {M K V : Type}
    (dflt : M) (ins : M → K → V → M) (pairs : List (K × V)) :
    AggregateMap.from_iter dflt ins pairs
        = AggregateMap.extend ins (AggregateMap.mkDefault dflt) pairs
    ∧ (AggregateMap.from_iter dflt ins pairs).into_inner
        = pairs.foldl (fun m p => ins m p.1 p.2) dflt :=
  ⟨rfl, rfl⟩

/-- C5: wrapping a container and unwrapping it returns the container
itself. -/
theorem C5_wrap_unwrap_round_trip {M : Type} (m : M) :
    (AggregateMap.fromMap m).into_inner = m := rfl

/-- C9: for both adapters, `insert(k, v)` leaves the binding of every other
key unchanged and leaves `k` bound (insert never removes a key). -/
theorem C9_insert_frame
    {K1 D1 V1 : Type} [DecidableEq K1] (d1 : D1) (e1 : D1 → V1 → D1)
    (m1 : List (K1 × D1)) (k1 : K1) (v1 : V1)
    {K2 D2 V2 : Type} [LinearOrder K2] (d2 : D2) (e2 : D2 → V2 → D2)
    (m2 : List (K2 × D2)) (k2 : K2) (v2 : V2) :
    (∀ k', k' ≠ k1 → lookup (hmInsert d1 e1 m1 k1 v1) k' = lookup m1 k')
    ∧ (lookup (hmInsert d1 e1 m1 k1 v1) k1).isSome = true
    ∧ (∀ k', k' ≠ k2 → lookup (btInsert d2 e2 m2 k2 v2) k' = lookup m2 k')
    ∧ (lookup (btInsert d2 e2 m2 k2 v2) k2).isSome = true := by
  refine ⟨fun k' h => lookup_hmInsert_ne d1 e1 m1 k1 v1 k' h, ?_,
    fun k' h => lookup_btInsert_ne d2 e2 m2 k2 v2 k' h,
    lookup_btInsert_isSome d2 e2 m2 k2 v2⟩
  rw [lookup_hmInsert_self]
  rfl

/-- Witness for C9 at concrete inputs. -/
theorem C9_insert_frame_witness :
    lookup (hmInsert [] vecExt ([(0, [1])] : List (Nat × List Nat)) 0 2) 1
      = lookup [(0, [1])] 1
    ∧ (lookup (hmInsert [] vecExt ([(0, [1])] : List (Nat × List Nat)) 0 2) 0).isSome
      = true
    ∧ lookup (btInsert [] vecExt ([(0, [1])] : List (Nat × List Nat)) 0 2) 1
      = lookup [(0, [1])] 1
    ∧ (lookup (btInsert [] vecExt ([(0, [1])] : List (Nat × List Nat)) 0 2) 0).isSome
      = true := by
  have h := C9_insert_frame ([] : List Nat) vecExt [(0, [1])] 0 2
      ([] : List Nat) vecExt [(0, [1])] 0 2
  exact ⟨h.1 1 (by decide), h.2.1, h.2.2.1 1 (by decide), h.2.2.2⟩

/-- C10: collecting is deterministic: two runs over the same pair sequence
with the same underlying map and per-key collection operations produce
equal underlying containers. -/
theorem C10_collect_deterministic {M K V : Type} (dflt : M) (ins : M → K → V → M)
    (p1 p2 : List (K × V)) (h : p1 = p2) :
    (AggregateMap.from_iter dflt ins p1).into_inner
      = (AggregateMap.from_iter dflt ins p2).into_inner := by
  rw [h]

/-- C8: inserting through the BTreeMap adapter preserves strict sortedness
of the keys, and every container built from the empty container by a
sequence of such inserts iterates its keys in strictly ascending order. -/
theorem C8_btreemap_sorted {K C V : Type} [LinearOrder K] (dflt : C) (ext1 : C → V → C) :
    (∀ (m : List (K × C)) (k : K) (v : V),
      sortedKeys m → sortedKeys (btInsert dflt ext1 m k v))
    ∧ ∀ pairs : List (K × V),
        sortedKeys ((AggregateMap.from_iter [] (btInsert dflt ext1) pairs).into_inner) := by
  refine ⟨fun m k v hs => sortedKeys_btInsert dflt ext1 m k v hs, fun pairs => ?_⟩
  have key : ∀ (ps : List (K × V)) (m : List (K × C)), sortedKeys m →
      sortedKeys ((AggregateMap.extend (btInsert dflt ext1) ⟨m⟩ ps).inner) := by
    intro ps
    induction ps with
    | nil => exact fun m hm => hm
    | cons p rest ih =>
      intro m hm
      rw [extend_cons]
      exact ih _ (sortedKeys_btInsert dflt ext1 m p.1 p.2 hm)
  exact key pairs [] (by simp [sortedKeys])

/-- Witness for C8 at concrete inputs, including out-of-order and repeated
keys. -/
theorem C8_btreemap_sorted_witness :
    sortedKeys ([(1, [5])] : List (Nat × List Nat))
    ∧ sortedKeys (btInsert [] vecExt ([(1, [5])] : List (Nat × List Nat)) 0 7)
    ∧ sortedKeys ((AggregateMap.from_iter ([] : List (Nat × List Nat))
        (btInsert [] vecExt)
        ([(2, 20), (1, 10), (2, 30)] : List (Nat × Nat))).into_inner) := by
  have h := @C8_btreemap_sorted Nat (List Nat) Nat _ [] vecExt
  exact ⟨by simp [sortedKeys], h.1 [(1, [5])] 0 7 (by simp [sortedKeys]),
    h.2 [(2, 20), (1, 10), (2, 30)]⟩

/-- C6: collecting `[("dog","Terry"), ("dog","Terry"), ("dog","Priscilla")]`
into a hash map with set-typed per-key collections yields the single key
`"dog"` bound to the two-element set containing `"Terry"` and
`"Priscilla"`: the duplicate `"Terry"` is coalesced, so the size is 2,
not 3. -/
theorem C6_set_deduplication :
    ((AggregateMap.from_iter [] (hmInsert [] setExt)
        [("dog", "Terry"), ("dog", "Terry"), ("dog", "Priscilla")]).into_inner).map
        Prod.fst
      = ["dog"]
    ∧ lookup ((AggregateMap.from_iter [] (hmInsert [] setExt)
        [("dog", "Terry"), ("dog", "Terry"), ("dog", "Priscilla")]).into_inner) "dog"
      = some ["Terry", "Priscilla"]
    ∧ ((lookup ((AggregateMap.from_iter [] (hmInsert [] setExt)
        [("dog", "Terry"), ("dog", "Terry"), ("dog", "Priscilla")]).into_inner)
        "dog").getD []).length = 2 := by
  refine ⟨rfl, rfl, rfl⟩

/-- C7: two-level aggregation of the pet/stray pairs: after unwrapping both
levels, "pet" maps to "dog" ↦ ["Terry", "Priscilla"] and "cat" ↦
["Absalom"], "stray" maps to "cat" ↦ ["Jennifer"], and there are no other
keys at either level. -/
theorem C7_nested_aggregation :
    (let u := ((AggregateMap.from_iter []
        (hmInsert (AggregateMap.mkDefault ([] : List (String × List String)))
          (aggExtendOne (hmInsert ([] : List String) vecExt)))
        [("pet", ("dog", "Terry")), ("pet", ("dog", "Priscilla")),
         ("stray", ("cat", "Jennifer")), ("pet", ("cat", "Absalom"))]).into_inner).map
        (fun p => (p.1, p.2.into_inner))
     u.length = 2
     ∧ (lookup u "pet").map (fun m => (lookup m "dog", lookup m "cat", m.length))
        = some (some ["Terry", "Priscilla"], some ["Absalom"], 2)
     ∧ (lookup u "stray").map (fun m => (lookup m "cat", m.length))
        = some (some ["Jennifer"], 1)) := by
  exact ⟨rfl, rfl, rfl⟩

/-- Witness for C10 at a concrete input. -/
theorem C10_collect_deterministic_witness :
    ([(0, 1), (0, 2)] : List (Nat × Nat)) = [(0, 1), (0, 2)]
    ∧ (AggregateMap.from_iter [] (hmInsert [] vecExt)
        ([(0, 1), (0, 2)] : List (Nat × Nat))).into_inner
      = (AggregateMap.from_iter [] (hmInsert [] vecExt)
        ([(0, 1), (0, 2)] : List (Nat × Nat))).into_inner :=
  ⟨rfl, C10_collect_deterministic [] (hmInsert [] vecExt) _ _ rfl⟩

end AggregateSpec
